import Mathlib

/-!
Verification of the `competitive_scanner` crate (`src/lib.rs`).

The `Scanner<R>` struct holds a `BufRead` reader and a `Vec<String>` buffer of
pending tokens stored in reversed order.  We embed the reader as the list of
lines it will deliver (each line without its trailing newline; an exhausted
reader is the empty list, matching `read_line` returning `Ok(0)` at EOF) and
the buffer as a `List String` in the same order as the Rust `Vec`
(`Vec::pop` takes the last element, i.e. `List.getLast?`).

A call of `Scanner::token` either returns a value and a new state, panics
(`expect` on a failed parse, or an out-of-bounds `Vec` index inside `graph`),
or never returns: at EOF `read_line` succeeds with zero bytes read, the
buffer is refilled to empty and the loop spins forever, which we model with
the `diverge` outcome.
-/

namespace CompetitiveScanner

/-- Character scan behind `str.split_whitespace()`: `cur` holds the
characters of the token being built, in reverse.  Whitespace ends the
current token; empty fragments between consecutive whitespace characters
are discarded. -/
def splitWspAux : List Char → List Char → List String
  | [], cur => if cur = [] then [] else [String.mk cur.reverse]
  | c :: cs, cur =>
    if c.isWhitespace then
      if cur = [] then splitWspAux cs []
      else String.mk cur.reverse :: splitWspAux cs []
    else splitWspAux cs (c :: cur)

/-- `str.split_whitespace()` on a line: maximal runs of non-whitespace
characters, in order; empty fragments discarded.  (Rust splits on Unicode
whitespace; the inputs in this development are ASCII, where
`Char.isWhitespace` agrees.) -/
def splitWsp (s : String) : List String :=
  splitWspAux s.data []

/-- Reasons a scanner operation can panic. -/
inductive PanicReason where
  | parseFail
  | indexOOB
  deriving DecidableEq, Repr

/-- The scanner state: the remaining lines of the reader, and the pending
token buffer in Rust `Vec` order (tokens of the current line reversed, so the
next token to pop is the last element). -/
structure Scanner where
  reader : List String
  buffer : List String
  deriving DecidableEq, Repr

/-- Outcome of a scanner operation: a value with the successor state, a
panic, or divergence (the EOF loop in `token`). -/
inductive ScanResult (τ : Type) where
  | ok (v : τ) (s : Scanner)
  | panic (r : PanicReason)
  | diverge
  deriving DecidableEq, Repr

/-- Map the returned value of a scanner operation, keeping state and
failures. -/
def ScanResult.mapVal {α β : Type} (f : α → β) : ScanResult α → ScanResult β
  | .ok v s => .ok (f v) s
  | .panic r => .panic r
  | .diverge => .diverge

/-- The loop body of `Scanner::token`, by recursion on the remaining lines:
pop the last buffer element and parse it (`expect`ing success); on an empty
buffer read one line, split it on whitespace, reverse, and retry; at EOF
(`reader = []`) loop forever. -/
def tokenAux {τ : Type} (p : String → Option τ) :
    List String → List String → ScanResult τ
  | reader, buffer =>
    match buffer.getLast? with
    | some t =>
      match p t with
      | some v => .ok v ⟨reader, buffer.dropLast⟩
      | none => .panic .parseFail
    | none =>
      match reader with
      | [] => .diverge
      | l :: rest => tokenAux p rest ((splitWsp l).reverse)

/-- `Scanner::token::<T>`: read the next whitespace-separated token and parse
it with `p` (the `FromStr` instance of `T`). -/
def Scanner.token {τ : Type} (p : String → Option τ) (s : Scanner) :
    ScanResult τ :=
  tokenAux p s.reader s.buffer

/-- `Scanner::new`: fresh scanner over a reader that will deliver the given
lines, with an empty pending buffer. -/
def Scanner.new (lines : List String) : Scanner := ⟨lines, []⟩

/-- `String::from_str` never fails. -/
def parseString (t : String) : Option String := some t

/-- Decimal-digit accumulator for `usize::from_str`; any non-digit
character fails.  The empty remainder yields the accumulated value. -/
def digitsToNat : List Char → Nat → Option Nat
  | [], acc => some acc
  | c :: cs, acc =>
    if c.isDigit then digitsToNat cs (acc * 10 + (c.toNat - '0'.toNat))
    else none

/-- `usize::from_str`: an optional leading `+` sign followed by at least one
decimal digit (we model the unbounded value; overflow is out of scope for
the claims). -/
def parseUsize (t : String) : Option Nat :=
  match t.data with
  | [] => none
  | '+' :: cs => if cs = [] then none else digitsToNat cs 0
  | cs => digitsToNat cs 0

/-- `Scanner::vec`: `(0..n).map(|_| self.token()).collect()`, i.e. `n`
sequential `token` calls collected in order. -/
def Scanner.vec {τ : Type} (p : String → Option τ) :
    Nat → Scanner → ScanResult (List τ)
  | 0, s => .ok [] s
  | n + 1, s =>
    match Scanner.token p s with
    | .ok v s₁ =>
      match Scanner.vec p n s₁ with
      | .ok l s₂ => .ok (v :: l) s₂
      | .panic r => .panic r
      | .diverge => .diverge
    | .panic r => .panic r
    | .diverge => .diverge

/-- `Scanner::matrix`: `(0..rows).map(|_| self.vec(cols)).collect()`. -/
def Scanner.matrix {τ : Type} (p : String → Option τ) :
    Nat → Nat → Scanner → ScanResult (List (List τ))
  | 0, _, s => .ok [] s
  | r + 1, c, s =>
    match Scanner.vec p c s with
    | .ok row s₁ =>
      match Scanner.matrix p r c s₁ with
      | .ok rows s₂ => .ok (row :: rows) s₂
      | .panic e => .panic e
      | .diverge => .diverge
    | .panic e => .panic e
    | .diverge => .diverge

/-- `Scanner::chars`: `self.token::<String>().chars().collect()`. -/
def Scanner.chars (s : Scanner) : ScanResult (List Char) :=
  (Scanner.token parseString s).mapVal String.data

/-- `Scanner::string`: `self.token::<String>()`. -/
def Scanner.string (s : Scanner) : ScanResult String :=
  Scanner.token parseString s

/-- `adj[u].push(v)`: Rust `Vec` indexing panics when `u` is out of bounds,
modelled by `none`. -/
def pushAt (adj : List (List Nat)) (u v : Nat) : Option (List (List Nat)) :=
  if h : u < adj.length then
    some (adj.set u (adj.get ⟨u, h⟩ ++ [v]))
  else
    none

/-- The edge loop of `Scanner::graph`: for each of the remaining `m` edges
read `u` then `v`, push `v` onto `adj[u]`, and when undirected also push `u`
onto `adj[v]`. -/
def graphAux (directed : Bool) :
    Nat → List (List Nat) → Scanner → ScanResult (List (List Nat))
  | 0, adj, s => .ok adj s
  | m + 1, adj, s =>
    match Scanner.token parseUsize s with
    | .ok u s₁ =>
      match Scanner.token parseUsize s₁ with
      | .ok v s₂ =>
        match pushAt adj u v with
        | some adj₁ =>
          if directed then graphAux directed m adj₁ s₂
          else
            match pushAt adj₁ v u with
            | some adj₂ => graphAux directed m adj₂ s₂
            | none => .panic .indexOOB
        | none => .panic .indexOOB
      | .panic r => .panic r
      | .diverge => .diverge
    | .panic r => .panic r
    | .diverge => .diverge

/-- `Scanner::graph`: start from `vec![vec![]; n + 1]` and run the edge
loop `m` times. -/
def Scanner.graph (n m : Nat) (directed : Bool) (s : Scanner) :
    ScanResult (List (List Nat)) :=
  graphAux directed m (List.replicate (n + 1) []) s

/-- All tokens still deliverable from a scanner state, in the order the
caller receives them: the pending buffer un-reversed, then the tokens of the
remaining lines. -/
def streamToks (s : Scanner) : List String :=
  s.buffer.reverse ++ (s.reader.map splitWsp).flatten

/-- The tokens of a list of input lines, in source order: left-to-right
within a line, lines in stream order. -/
def linesTokens (lines : List String) : List String :=
  (lines.map splitWsp).flatten

lemma reverse_of_getLast?_some {α : Type} {l : List α} {t : α}
    (h : l.getLast? = some t) : l.reverse = t :: l.dropLast.reverse := by
  have hh : l.reverse.head? = some t := by rw [List.head?_reverse]; exact h
  cases hr : l.reverse with
  | nil => rw [hr] at hh; simp at hh
  | cons a as =>
    rw [hr] at hh
    simp only [List.head?_cons, Option.some.injEq] at hh
    have hl : l = as.reverse ++ [a] := by
      have h2 := congrArg List.reverse hr
      simpa using h2
    subst hh
    rw [hl]
    simp [List.dropLast_concat]

/-- One-step unfolding of the `token` loop body. -/
lemma tokenAux_unfold {τ : Type} (p : String → Option τ)
    (reader buffer : List String) :
    tokenAux p reader buffer =
      match buffer.getLast? with
      | some t =>
        match p t with
        | some v => .ok v ⟨reader, buffer.dropLast⟩
        | none => .panic .parseFail
      | none =>
        match reader with
        | [] => .diverge
        | l :: rest => tokenAux p rest ((splitWsp l).reverse) := by
  cases reader <;> rw [tokenAux]

/-- When the remaining token stream is nonempty, the `token` loop reaches a
state whose buffer has the stream's first token as its last element (the one
`Vec::pop` returns), and the state left after popping carries the rest of
the stream. -/
lemma tokenAux_progress {τ : Type} (p : String → Option τ) :
    ∀ (reader buffer : List String) (t : String) (rest : List String),
      buffer.reverse ++ (reader.map splitWsp).flatten = t :: rest →
      ∃ r' b', b'.getLast? = some t ∧
        tokenAux p reader buffer = tokenAux p r' b' ∧
        b'.dropLast.reverse ++ (r'.map splitWsp).flatten = rest := by
  intro reader
  induction reader with
  | nil =>
    intro buffer t rest h
    simp only [List.map_nil, List.flatten_nil, List.append_nil] at h
    refine ⟨[], buffer, ?_, rfl, ?_⟩
    · rw [List.getLast?_eq_head?_reverse, h]; rfl
    · have hbuf : buffer = rest.reverse ++ [t] := by
        have h2 := congrArg List.reverse h
        simpa using h2
      rw [hbuf]
      simp
  | cons l rs ih =>
    intro buffer t rest h
    cases hb : buffer.getLast? with
    | some u =>
      have hrev := reverse_of_getLast?_some hb
      rw [hrev, List.cons_append] at h
      obtain ⟨h1, h2⟩ := List.cons.inj h
      subst h1
      exact ⟨l :: rs, buffer, hb, rfl, h2⟩
    | none =>
      have hbuf : buffer = [] := List.getLast?_eq_none_iff.mp hb
      subst hbuf
      have hstep : tokenAux p (l :: rs) [] =
          tokenAux p rs ((splitWsp l).reverse) := rfl
      have h' : ((splitWsp l).reverse).reverse ++ (rs.map splitWsp).flatten
          = t :: rest := by simpa using h
      obtain ⟨r', b', h1, h2, h3⟩ := ih ((splitWsp l).reverse) t rest h'
      exact ⟨r', b', h1, by rw [hstep, h2], h3⟩

/-- Successful `token`: when the stream starts with `t` and `t` parses,
`token` returns the parse of `t` and the successor state carries the rest of
the stream. -/
lemma token_ok {τ : Type} {p : String → Option τ} {s : Scanner} {t : String}
    {rest : List String} {v : τ}
    (hs : streamToks s = t :: rest) (hp : p t = some v) :
    ∃ s', Scanner.token p s = .ok v s' ∧ streamToks s' = rest := by
  obtain ⟨r', b', h1, h2, h3⟩ :=
    tokenAux_progress p s.reader s.buffer t rest hs
  refine ⟨⟨r', b'.dropLast⟩, ?_, h3⟩
  rw [Scanner.token, h2, tokenAux_unfold]
  simp [h1, hp]

/-- Failing parse: when the stream starts with `t` and `t` does not parse,
`token` panics (`expect("Failed to parse token")`). -/
lemma token_parseFail {τ : Type} {p : String → Option τ} {s : Scanner}
    {t : String} {rest : List String}
    (hs : streamToks s = t :: rest) (hp : p t = none) :
    Scanner.token p s = .panic .parseFail := by
  obtain ⟨r', b', h1, h2, _⟩ :=
    tokenAux_progress p s.reader s.buffer t rest hs
  rw [Scanner.token, h2, tokenAux_unfold]
  simp [h1, hp]

lemma tokenAux_nil_diverge {τ : Type} (p : String → Option τ) :
    ∀ reader : List String, (reader.map splitWsp).flatten = [] →
      tokenAux p reader [] = .diverge := by
  intro reader
  induction reader with
  | nil => intro _; rfl
  | cons l rs ih =>
    intro hr
    simp only [List.map_cons, List.flatten_cons, List.append_eq_nil] at hr
    have hstep : tokenAux p (l :: rs) [] =
        tokenAux p rs ((splitWsp l).reverse) := rfl
    rw [hstep, hr.1]
    simpa using ih hr.2

/-- Exhausted stream: `token` diverges (the EOF loop). -/
lemma token_diverge {τ : Type} (p : String → Option τ) (s : Scanner)
    (hs : streamToks s = []) : Scanner.token p s = .diverge := by
  obtain ⟨reader, buffer⟩ := s
  simp only [streamToks, List.append_eq_nil] at hs
  obtain ⟨hb, hr⟩ := hs
  have hbuf : buffer = [] := by simpa using congrArg List.reverse hb
  subst hbuf
  rw [Scanner.token]
  exact tokenAux_nil_diverge p reader hr

lemma vec_succ {τ : Type} (p : String → Option τ) (n : Nat) (s : Scanner) :
    Scanner.vec p (n + 1) s =
      match Scanner.token p s with
      | .ok v s₁ =>
        match Scanner.vec p n s₁ with
        | .ok l s₂ => .ok (v :: l) s₂
        | .panic r => .panic r
        | .diverge => .diverge
      | .panic r => .panic r
      | .diverge => .diverge := rfl

/-- Reading `n` tokens as strings succeeds whenever the remaining stream is
long enough, returns the first `n` stream tokens in order, and leaves the
rest of the stream for later reads. -/
lemma vec_parseString (n : Nat) : ∀ s : Scanner,
    n ≤ (streamToks s).length →
    ∃ s', Scanner.vec parseString n s = .ok ((streamToks s).take n) s' ∧
      streamToks s' = (streamToks s).drop n := by
  induction n with
  | zero => intro s _; exact ⟨s, rfl, by simp⟩
  | succ n ih =>
    intro s hn
    cases hst : streamToks s with
    | nil => rw [hst] at hn; simp at hn
    | cons t rest =>
      obtain ⟨s₁, h1, h2⟩ :=
        token_ok (p := parseString) (v := t) hst rfl
      have hn' : n ≤ (streamToks s₁).length := by
        rw [h2]
        rw [hst] at hn
        simpa using Nat.le_of_succ_le_succ hn
      obtain ⟨s', h3, h4⟩ := ih s₁ hn'
      refine ⟨s', ?_, ?_⟩
      · rw [vec_succ, h1]
        simp [h3, h2]
      · rw [h4, h2]
        simp

/-- Claim C1: for input split into lines, reading as many single tokens as
the input holds returns exactly the original tokens in source order —
left-to-right within a line, lines in stream order — despite the buffer
storing each line's tokens reversed. -/
theorem token_reads_tokens_in_source_order (lines : List String) :
    ∃ s', Scanner.vec parseString (linesTokens lines).length
        (Scanner.new lines) = .ok (linesTokens lines) s' := by
  have hs : streamToks (Scanner.new lines) = linesTokens lines := by
    simp [streamToks, Scanner.new, linesTokens]
  obtain ⟨s', h1, _⟩ :=
    vec_parseString (linesTokens lines).length (Scanner.new lines)
      (by simp [hs])
  rw [hs, List.take_length] at h1
  exact ⟨s', h1⟩

/-- Claim C2, counterexample: with the source exhausted and the buffer
empty, `token` does not abort: `read_line` keeps returning `Ok(0)` and the
loop spins forever (modelled as `diverge`), which is neither a panic nor a
default value. -/
theorem token_exhausted_not_fatal_cex :
    Scanner.token parseUsize (Scanner.new []) = ScanResult.diverge ∧
    Scanner.token parseUsize (Scanner.new []) ≠
      ScanResult.panic PanicReason.parseFail ∧
    Scanner.token parseUsize (Scanner.new []) ≠
      ScanResult.panic PanicReason.indexOOB ∧
    Scanner.token parseUsize (Scanner.new []) ≠
      ScanResult.ok 0 (Scanner.new []) := by
  refine ⟨rfl, ?_, ?_, ?_⟩ <;> decide

/-- Claim C2 as amended: requesting a token from an exhausted source with an
empty pending buffer never returns — the read loop diverges rather than
aborting or producing a zero/default value. -/
theorem token_diverges_when_exhausted (τ : Type) (p : String → Option τ) :
    Scanner.token p (Scanner.new []) = ScanResult.diverge := rfl

/-- Claim C3: when the next raw token does not parse into the requested
type, `token` panics (`expect("Failed to parse token")`) instead of
returning a value. -/
theorem token_panics_on_parse_failure {τ : Type} (p : String → Option τ)
    (s : Scanner) (t : String) (rest : List String)
    (hs : streamToks s = t :: rest) (hp : p t = none) :
    Scanner.token p s = ScanResult.panic PanicReason.parseFail :=
  token_parseFail hs hp

theorem token_panics_on_parse_failure_witness :
    Scanner.token parseUsize (Scanner.new ["abc"]) =
      ScanResult.panic PanicReason.parseFail :=
  token_panics_on_parse_failure parseUsize (Scanner.new ["abc"]) "abc" []
    (by decide) (by decide)

/-- Claim C4: the pending buffer is refilled only when empty.  A `token`
call with a non-empty buffer pops exactly one pending token (the last
`Vec` element) and leaves the reader untouched; with an empty buffer it
consumes exactly one line, split on whitespace boundaries; the splitting
never produces an empty fragment. -/
theorem buffer_refill_discipline :
    (∀ (τ : Type) (p : String → Option τ) (s : Scanner), s.buffer ≠ [] →
      ∃ t, s.buffer.getLast? = some t ∧
        Scanner.token p s =
          match p t with
          | some v => ScanResult.ok v ⟨s.reader, s.buffer.dropLast⟩
          | none => ScanResult.panic PanicReason.parseFail) ∧
    (∀ (τ : Type) (p : String → Option τ) (l : String) (rs : List String),
      Scanner.token p ⟨l :: rs, []⟩ =
        Scanner.token p ⟨rs, (splitWsp l).reverse⟩) ∧
    (∀ l : String, "" ∉ splitWsp l) := by
  refine ⟨?_, ?_, ?_⟩
  · intro τ p s hb
    cases hbl : s.buffer.getLast? with
    | none => exact absurd (List.getLast?_eq_none_iff.mp hbl) hb
    | some t =>
      refine ⟨t, rfl, ?_⟩
      rw [Scanner.token, tokenAux_unfold, hbl]
  · intro τ p l rs
    rfl
  · intro l
    rw [splitWsp]
    generalize l.data = cs
    generalize ([] : List Char) = cur
    induction cs generalizing cur with
    | nil =>
      rw [splitWspAux]
      split <;> simp_all [String.ext_iff]
    | cons c cs ih =>
      rw [splitWspAux]
      split
      · split
        · exact ih []
        · simp only [List.mem_cons, not_or]
          refine ⟨?_, ih []⟩
          simp_all [String.ext_iff]
      · exact ih (c :: cur)

theorem buffer_refill_discipline_witness :
    Scanner.token parseUsize ⟨["1 2"], ["5"]⟩ =
      ScanResult.ok 5 ⟨["1 2"], []⟩ := by
  obtain ⟨t, ht, he⟩ :=
    buffer_refill_discipline.1 Nat parseUsize ⟨["1 2"], ["5"]⟩ (by decide)
  have h0 : (["5"] : List String).getLast? = some "5" := by decide
  have ht' : t = "5" := (Option.some.inj (h0.symm.trans ht)).symm
  subst ht'
  rw [show parseUsize "5" = some 5 from by decide] at he
  simpa using he

/-- The spec's description of `read_vector(n)`: call the single-token read
`n` times in sequence, accumulating the results in arrival order. -/
def tokenCallsFrom {τ : Type} (p : String → Option τ) (acc : List τ) :
    Nat → Scanner → ScanResult (List τ)
  | 0, s => .ok acc.reverse s
  | n + 1, s =>
    match Scanner.token p s with
    | .ok v s' => tokenCallsFrom p (v :: acc) n s'
    | .panic r => .panic r
    | .diverge => .diverge

/-- `n` single-token reads in sequence, as the spec words them. -/
def tokenCalls {τ : Type} (p : String → Option τ) (n : Nat) (s : Scanner) :
    ScanResult (List τ) :=
  tokenCallsFrom p [] n s

lemma tokenCallsFrom_eq {τ : Type} (p : String → Option τ) :
    ∀ (n : Nat) (acc : List τ) (s : Scanner),
      tokenCallsFrom p acc n s =
        (Scanner.vec p n s).mapVal (fun l => acc.reverse ++ l) := by
  intro n
  induction n with
  | zero =>
    intro acc s
    simp [tokenCallsFrom, Scanner.vec, ScanResult.mapVal]
  | succ n ih =>
    intro acc s
    rw [show tokenCallsFrom p acc (n + 1) s =
        (match Scanner.token p s with
         | .ok v s' => tokenCallsFrom p (v :: acc) n s'
         | .panic r => .panic r
         | .diverge => .diverge) from rfl]
    rw [vec_succ]
    cases Scanner.token p s with
    | ok v s' =>
      dsimp only
      rw [ih]
      cases Scanner.vec p n s' <;> simp [ScanResult.mapVal]
    | panic r => simp [ScanResult.mapVal]
    | diverge => simp [ScanResult.mapVal]

/-- Claim C5: for every `n` and every scanner state, `vec(n)` is the same
operation as `n` single-token reads in sequence — the same ordered result
values and the same successor state, so nothing is skipped or re-read. -/
theorem vec_eq_iterated_token {τ : Type} (p : String → Option τ) (n : Nat)
    (s : Scanner) : Scanner.vec p n s = tokenCalls p n s := by
  rw [tokenCalls, tokenCallsFrom_eq]
  cases Scanner.vec p n s <;> simp [ScanResult.mapVal]

lemma vec_add {τ : Type} (p : String → Option τ) (a b : Nat) :
    ∀ s : Scanner, Scanner.vec p (a + b) s =
      match Scanner.vec p a s with
      | .ok l s₁ => (Scanner.vec p b s₁).mapVal (fun l₂ => l ++ l₂)
      | .panic r => .panic r
      | .diverge => .diverge := by
  induction a with
  | zero =>
    intro s
    simp only [Nat.zero_add]
    rw [show Scanner.vec p 0 s = ScanResult.ok ([] : List τ) s from rfl]
    dsimp only
    cases Scanner.vec p b s <;> simp [ScanResult.mapVal]
  | succ a ih =>
    intro s
    have hn : a + 1 + b = (a + b) + 1 := by omega
    rw [hn, vec_succ, vec_succ]
    cases Scanner.token p s with
    | ok v s₁ =>
      dsimp only
      rw [ih s₁]
      cases Scanner.vec p a s₁ with
      | ok l s₂ =>
        dsimp only
        cases Scanner.vec p b s₂ <;> simp [ScanResult.mapVal]
      | panic r => simp [ScanResult.mapVal]
      | diverge => simp [ScanResult.mapVal]
    | panic r => rfl
    | diverge => rfl

lemma vec_ok_length {τ : Type} (p : String → Option τ) :
    ∀ (n : Nat) (s s' : Scanner) (l : List τ),
      Scanner.vec p n s = .ok l s' → l.length = n := by
  intro n
  induction n with
  | zero =>
    intro s s' l h
    rw [show Scanner.vec p 0 s = ScanResult.ok ([] : List τ) s from rfl] at h
    cases h
    rfl
  | succ n ih =>
    intro s s' l h
    rw [vec_succ] at h
    cases htok : Scanner.token p s with
    | ok v s₁ =>
      rw [htok] at h
      dsimp only at h
      cases hv : Scanner.vec p n s₁ with
      | ok l₂ s₂ =>
        rw [hv] at h
        dsimp only at h
        injection h with h1 h2
        rw [← h1]
        simp [ih s₁ s₂ l₂ hv]
      | panic r => rw [hv] at h; cases h
      | diverge => rw [hv] at h; cases h
    | panic r => rw [htok] at h; cases h
    | diverge => rw [htok] at h; cases h

lemma matrix_succ {τ : Type} (p : String → Option τ) (r c : Nat)
    (s : Scanner) :
    Scanner.matrix p (r + 1) c s =
      match Scanner.vec p c s with
      | .ok row s₁ =>
        match Scanner.matrix p r c s₁ with
        | .ok rows s₂ => .ok (row :: rows) s₂
        | .panic e => .panic e
        | .diverge => .diverge
      | .panic e => .panic e
      | .diverge => .diverge := rfl

lemma matrix_flatten_aux {τ : Type} (p : String → Option τ) :
    ∀ (r c : Nat) (s : Scanner),
      (Scanner.matrix p r c s).mapVal List.flatten =
        Scanner.vec p (r * c) s := by
  intro r
  induction r with
  | zero =>
    intro c s
    rw [show Scanner.matrix p 0 c s =
        ScanResult.ok ([] : List (List τ)) s from rfl]
    rw [show (0 : Nat) * c = 0 from by omega]
    rfl
  | succ r ih =>
    intro c s
    rw [show (r + 1) * c = c + r * c from by ring]
    rw [vec_add p c (r * c) s, matrix_succ]
    cases Scanner.vec p c s with
    | ok row s₁ =>
      dsimp only
      rw [← ih c s₁]
      cases Scanner.matrix p r c s₁ <;> simp [ScanResult.mapVal]
    | panic e => rfl
    | diverge => rfl

lemma matrix_ok_shape {τ : Type} (p : String → Option τ) :
    ∀ (r c : Nat) (s s' : Scanner) (m : List (List τ)),
      Scanner.matrix p r c s = .ok m s' →
      m.length = r ∧ ∀ row ∈ m, row.length = c := by
  intro r
  induction r with
  | zero =>
    intro c s s' m h
    rw [show Scanner.matrix p 0 c s =
        ScanResult.ok ([] : List (List τ)) s from rfl] at h
    cases h
    simp
  | succ r ih =>
    intro c s s' m h
    rw [matrix_succ] at h
    cases hv : Scanner.vec p c s with
    | ok row s₁ =>
      rw [hv] at h
      dsimp only at h
      cases hm : Scanner.matrix p r c s₁ with
      | ok rows s₂ =>
        rw [hm] at h
        dsimp only at h
        injection h with h1 h2
        subst h1
        obtain ⟨hl, hr⟩ := ih c s₁ s₂ rows hm
        refine ⟨by simp [hl], ?_⟩
        intro row' hrow
        rcases List.mem_cons.mp hrow with hA | hB
        · rw [hA]; exact vec_ok_length p c s s₁ row hv
        · exact hr row' hB
      | panic e => rw [hm] at h; cases h
      | diverge => rw [hm] at h; cases h
    | panic e => rw [hv] at h; cases h
    | diverge => rw [hv] at h; cases h

/-- Claim C6: for every `rows`, `cols` and input, `matrix(rows, cols)` is
`rows * cols` consecutive single-token reads reshaped row-major: its
flattening (value and successor state alike) equals `vec(rows * cols)`, and
a successful result has `rows` rows each of length `cols`. -/
theorem matrix_flatten_eq_vec :
    (∀ (τ : Type) (p : String → Option τ) (r c : Nat) (s : Scanner),
      (Scanner.matrix p r c s).mapVal List.flatten =
        Scanner.vec p (r * c) s) ∧
    (∀ (τ : Type) (p : String → Option τ) (r c : Nat) (s s' : Scanner)
        (m : List (List τ)), Scanner.matrix p r c s = .ok m s' →
      m.length = r ∧ ∀ row ∈ m, row.length = c) :=
  ⟨fun _ p r c s => matrix_flatten_aux p r c s,
   fun _ p r c s s' m h => matrix_ok_shape p r c s s' m h⟩

theorem matrix_flatten_eq_vec_witness :
    Scanner.matrix parseUsize 2 3 (Scanner.new ["1 2 3", "4 5 6"]) =
      ScanResult.ok [[1, 2, 3], [4, 5, 6]] ⟨[], []⟩ ∧
    ([[1, 2, 3], [4, 5, 6]] : List (List Nat)).length = 2 ∧
    ∀ row ∈ ([[1, 2, 3], [4, 5, 6]] : List (List Nat)), row.length = 3 := by
  obtain ⟨h1, h2⟩ :=
    matrix_flatten_eq_vec.2 Nat parseUsize 2 3
      (Scanner.new ["1 2 3", "4 5 6"]) ⟨[], []⟩ [[1, 2, 3], [4, 5, 6]]
      (by decide)
  exact ⟨by decide, h1, h2⟩

/-- The spec's description of the edge phase of `read_graph`: for each edge
`(u, v)` in arrival order, append `v` to `u`'s adjacency list, and when the
graph is undirected additionally append `u` to `v`'s list — no sorting, no
deduplication, out-of-range indexing fails. -/
def buildAdj (directed : Bool) :
    List (Nat × Nat) → List (List Nat) → Option (List (List Nat))
  | [], adj => some adj
  | (u, v) :: es, adj =>
    match pushAt adj u v with
    | some a₁ =>
      if directed then buildAdj directed es a₁
      else
        match pushAt a₁ v u with
        | some a₂ => buildAdj directed es a₂
        | none => none
    | none => none

/-- The raw token stream that encodes an edge list: `u` then `v` for each
edge, edges in order. -/
def edgeToks (edges : List (Nat × Nat)) : List Nat :=
  edges.flatMap (fun e => [e.1, e.2])

lemma pushAt_some {adj : List (List Nat)} {u : Nat} (v : Nat)
    (h : u < adj.length) :
    ∃ a, pushAt adj u v = some a ∧ a.length = adj.length := by
  refine ⟨adj.set u (adj.get ⟨u, h⟩ ++ [v]), ?_, by simp⟩
  rw [pushAt, dif_pos h]

lemma pushAt_length {adj a : List (List Nat)} {u v : Nat}
    (h : pushAt adj u v = some a) : a.length = adj.length := by
  rw [pushAt] at h
  split at h
  · injection h with h1
    rw [← h1]
    simp
  · cases h

lemma pushAt_head? {adj a : List (List Nat)} {u v : Nat}
    (hu : 1 ≤ u) (h : pushAt adj u v = some a) : a.head? = adj.head? := by
  obtain ⟨k, rfl⟩ : ∃ k, u = k + 1 := ⟨u - 1, by omega⟩
  rw [pushAt] at h
  split at h
  · injection h with h1
    rw [← h1]
    cases adj with
    | nil => rfl
    | cons x xs => rfl
  · cases h

lemma vec_succ_ok_inv {τ : Type} {p : String → Option τ} {n : Nat}
    {s s' : Scanner} {x : τ} {l : List τ}
    (h : Scanner.vec p (n + 1) s = .ok (x :: l) s') :
    ∃ s₁, Scanner.token p s = .ok x s₁ ∧ Scanner.vec p n s₁ = .ok l s' := by
  rw [vec_succ] at h
  cases htok : Scanner.token p s with
  | ok v s₁ =>
    rw [htok] at h
    dsimp only at h
    cases hv : Scanner.vec p n s₁ with
    | ok l₂ s₂ =>
      rw [hv] at h
      dsimp only at h
      injection h with h1 h2
      obtain ⟨hx, hl⟩ := List.cons.inj h1
      subst hx
      subst h2
      exact ⟨s₁, rfl, by rw [hv, hl]⟩
    | panic r => rw [hv] at h; cases h
    | diverge => rw [hv] at h; cases h
  | panic r => rw [htok] at h; cases h
  | diverge => rw [htok] at h; cases h

lemma graphAux_succ (directed : Bool) (m : Nat) (adj : List (List Nat))
    (s : Scanner) :
    graphAux directed (m + 1) adj s =
      match Scanner.token parseUsize s with
      | .ok u s₁ =>
        match Scanner.token parseUsize s₁ with
        | .ok v s₂ =>
          match pushAt adj u v with
          | some adj₁ =>
            if directed then graphAux directed m adj₁ s₂
            else
              match pushAt adj₁ v u with
              | some adj₂ => graphAux directed m adj₂ s₂
              | none => .panic .indexOOB
          | none => .panic .indexOOB
        | .panic r => .panic r
        | .diverge => .diverge
      | .panic r => .panic r
      | .diverge => .diverge := rfl

lemma buildAdj_cons (directed : Bool) (u v : Nat) (es : List (Nat × Nat))
    (adj : List (List Nat)) :
    buildAdj directed ((u, v) :: es) adj =
      match pushAt adj u v with
      | some a₁ =>
        if directed then buildAdj directed es a₁
        else
          match pushAt a₁ v u with
          | some a₂ => buildAdj directed es a₂
          | none => none
      | none => none := rfl

/-- The edge loop of `graph` consumes exactly the `2 m` endpoint tokens of
the stream and computes the same adjacency structure as the spec-level fold
`buildAdj`, provided every endpoint is in bounds for `adj`. -/
lemma graphAux_eq_buildAdj (directed : Bool) :
    ∀ (edges : List (Nat × Nat)) (adj : List (List Nat)) (s s' : Scanner),
      Scanner.vec parseUsize (2 * edges.length) s =
        .ok (edgeToks edges) s' →
      (∀ e ∈ edges, e.1 < adj.length ∧ e.2 < adj.length) →
      ∃ a, buildAdj directed edges adj = some a ∧
        graphAux directed edges.length adj s = .ok a s' := by
  intro edges
  induction edges with
  | nil =>
    intro adj s s' hv _
    have hv' : ScanResult.ok ([] : List Nat) s =
        ScanResult.ok ([] : List Nat) s' := hv
    injection hv' with _ h2
    subst h2
    exact ⟨adj, rfl, rfl⟩
  | cons e es ih =>
    obtain ⟨u, v⟩ := e
    intro adj s s' hv hb
    have hlen : 2 * ((u, v) :: es).length = (2 * es.length + 1) + 1 := by
      simp [List.length_cons]
      ring
    rw [hlen] at hv
    have het : edgeToks ((u, v) :: es) = u :: v :: edgeToks es := rfl
    rw [het] at hv
    obtain ⟨s₁, ht1, hv1⟩ := vec_succ_ok_inv hv
    obtain ⟨s₂, ht2, hv2⟩ := vec_succ_ok_inv hv1
    obtain ⟨hu, hvlt⟩ := hb (u, v) (List.mem_cons_self _ _)
    obtain ⟨a₁, hp1, hl1⟩ := pushAt_some v hu
    rw [show ((u, v) :: es).length = es.length + 1 from rfl]
    rw [graphAux_succ, ht1]
    dsimp only
    rw [ht2]
    dsimp only
    rw [buildAdj_cons, hp1]
    dsimp only
    cases directed with
    | true =>
      simp only [if_true]
      have hb' : ∀ e ∈ es, e.1 < a₁.length ∧ e.2 < a₁.length := by
        rw [hl1]
        intro e he
        exact hb e (List.mem_cons_of_mem _ he)
      exact ih a₁ s₂ s' hv2 hb'
    | false =>
      simp only [Bool.false_eq_true, if_false]
      have hvlt' : v < a₁.length := by rw [hl1]; exact hvlt
      obtain ⟨a₂, hp2, hl2⟩ := pushAt_some u hvlt'
      rw [hp2]
      dsimp only
      have hb' : ∀ e ∈ es, e.1 < a₂.length ∧ e.2 < a₂.length := by
        rw [hl2, hl1]
        intro e he
        exact hb e (List.mem_cons_of_mem _ he)
      exact ih a₂ s₂ s' hv2 hb'

/-- Claim C7: when the `2 m` endpoint tokens are in `[0, n]`, `graph`
returns exactly the adjacency structure of the spec-level fold `buildAdj`
over the edges in arrival order, starting from `n + 1` empty lists: each
edge `(u, v)` appends `v` to `u`'s list and, when undirected, `u` to `v`'s
list, with no sorting or deduplication (a self-loop in an undirected graph
is appended twice). -/
theorem graph_appends_edges_in_order (directed : Bool) (n : Nat)
    (edges : List (Nat × Nat)) (s s' : Scanner)
    (hv : Scanner.vec parseUsize (2 * edges.length) s =
      .ok (edgeToks edges) s')
    (hb : ∀ e ∈ edges, e.1 ≤ n ∧ e.2 ≤ n) :
    ∃ adj, buildAdj directed edges (List.replicate (n + 1) []) = some adj ∧
      Scanner.graph n edges.length directed s = .ok adj s' := by
  refine graphAux_eq_buildAdj directed edges (List.replicate (n + 1) [])
    s s' hv ?_
  intro e he
  obtain ⟨h1, h2⟩ := hb e he
  simp only [List.length_replicate]
  omega

theorem graph_appends_edges_in_order_witness :
    Scanner.graph 2 2 false (Scanner.new ["1 2", "2 2"]) =
      ScanResult.ok [[], [2], [1, 2, 2]] ⟨[], []⟩ := by
  obtain ⟨adj, hA, hG⟩ :=
    graph_appends_edges_in_order false 2 [(1, 2), (2, 2)]
      (Scanner.new ["1 2", "2 2"]) ⟨[], []⟩ (by decide) (by decide)
  have h2 : buildAdj false [(1, 2), (2, 2)] (List.replicate (2 + 1) []) =
      some [[], [2], [1, 2, 2]] := by decide
  have ha : adj = [[], [2], [1, 2, 2]] :=
    Option.some.inj (hA.symm.trans h2)
  rw [ha] at hG
  exact hG

/-- A successful run of the spec-level fold keeps the structure's length,
and keeps entry 0 untouched as long as every endpoint is at least 1. -/
lemma buildAdj_shape (directed : Bool) :
    ∀ (es : List (Nat × Nat)) (adj a : List (List Nat)),
      (∀ e ∈ es, 1 ≤ e.1 ∧ 1 ≤ e.2) →
      buildAdj directed es adj = some a →
      a.length = adj.length ∧ a.head? = adj.head? := by
  intro es
  induction es with
  | nil =>
    intro adj a _ h
    rw [show buildAdj directed [] adj = some adj from rfl] at h
    injection h with h1
    rw [← h1]
    exact ⟨rfl, rfl⟩
  | cons e es ih =>
    obtain ⟨u, v⟩ := e
    intro adj a hb h
    rw [buildAdj_cons] at h
    cases hp1 : pushAt adj u v with
    | none => rw [hp1] at h; cases h
    | some a₁ =>
      rw [hp1] at h
      dsimp only at h
      have h1 := hb (u, v) (List.mem_cons_self _ _)
      have hb' : ∀ e ∈ es, 1 ≤ e.1 ∧ 1 ≤ e.2 :=
        fun e he => hb e (List.mem_cons_of_mem _ he)
      cases directed with
      | true =>
        simp only [if_true] at h
        obtain ⟨hl, hh⟩ := ih a₁ a hb' h
        exact ⟨hl.trans (pushAt_length hp1),
               hh.trans (pushAt_head? h1.1 hp1)⟩
      | false =>
        simp only [Bool.false_eq_true, if_false] at h
        cases hp2 : pushAt a₁ v u with
        | none => rw [hp2] at h; cases h
        | some a₂ =>
          rw [hp2] at h
          dsimp only at h
          obtain ⟨hl, hh⟩ := ih a₂ a hb' h
          exact ⟨hl.trans ((pushAt_length hp2).trans (pushAt_length hp1)),
                 hh.trans ((pushAt_head? h1.2 hp2).trans
                   (pushAt_head? h1.1 hp1))⟩

/-- Claim C8, counterexample: the claim allows endpoint tokens anywhere in
`[0, n]`, but an endpoint equal to 0 is appended at index 0, so index 0 is
not an empty placeholder: on input `"0 1"` with `n = 1`, entry 0 of the
result is `[1]`. -/
theorem graph_index_zero_not_placeholder_cex :
    Scanner.graph 1 1 false (Scanner.new ["0 1"]) =
      ScanResult.ok [[1], [0]] ⟨[], []⟩ ∧
    ([[1], [0]] : List (List Nat)).getD 0 [] ≠ ([] : List Nat) :=
  ⟨by decide, by decide⟩

/-- Claim C8 as amended: for endpoint tokens in `[1, n]`, the returned
adjacency structure has exactly `n + 1` entries indexed `0..n`, and index 0
is an empty placeholder.  (An endpoint token equal to 0 is instead appended
to entry 0, so 0 endpoints are excluded.) -/
theorem graph_adjacency_shape (directed : Bool) (n : Nat)
    (edges : List (Nat × Nat)) (s s' : Scanner)
    (hv : Scanner.vec parseUsize (2 * edges.length) s =
      .ok (edgeToks edges) s')
    (hb : ∀ e ∈ edges, 1 ≤ e.1 ∧ e.1 ≤ n ∧ 1 ≤ e.2 ∧ e.2 ≤ n) :
    ∃ adj, Scanner.graph n edges.length directed s = .ok adj s' ∧
      adj.length = n + 1 ∧ adj.head? = some ([] : List Nat) := by
  obtain ⟨adj, hA, hG⟩ :=
    graphAux_eq_buildAdj directed edges (List.replicate (n + 1) []) s s' hv
      (by
        intro e he
        obtain ⟨_, h1, _, h2⟩ := hb e he
        simp only [List.length_replicate]
        omega)
  obtain ⟨hl, hh⟩ :=
    buildAdj_shape directed edges (List.replicate (n + 1) []) adj
      (fun e he => ⟨(hb e he).1, (hb e he).2.2.1⟩) hA
  refine ⟨adj, hG, by simpa using hl, ?_⟩
  rw [hh, List.replicate_succ]
  rfl

theorem graph_adjacency_shape_witness :
    Scanner.graph 2 1 true (Scanner.new ["1 2"]) =
      ScanResult.ok [[], [2], []] ⟨[], []⟩ ∧
    ([[], [2], []] : List (List Nat)).length = 2 + 1 ∧
    ([[], [2], []] : List (List Nat)).head? = some ([] : List Nat) := by
  obtain ⟨adj, hG, hL, hH⟩ :=
    graph_adjacency_shape true 2 [(1, 2)] (Scanner.new ["1 2"]) ⟨[], []⟩
      (by decide) (by decide)
  have he : Scanner.graph 2 1 true (Scanner.new ["1 2"]) =
      ScanResult.ok [[], [2], []] ⟨[], []⟩ := by decide
  have ha : adj = [[], [2], []] := by
    have h3 := hG.symm.trans he
    injection h3
  rw [ha] at hL hH
  exact ⟨he, hL, hH⟩

/-- Claim C9: vertex indices are not validated against `n`: an edge whose
first endpoint token is 5 with `n = 1` reaches the out-of-bounds branch of
the `Vec` indexing `adj[u]`, so the call panics instead of returning an
adjacency structure. -/
theorem graph_unvalidated_index_out_of_bounds :
    Scanner.graph 1 1 true (Scanner.new ["5 1"]) =
      ScanResult.panic PanicReason.indexOOB := by decide

/-- An observable scanner operation, with its arguments. -/
inductive Op where
  | tokOp
  | vecOp (n : Nat)
  | matrixOp (r c : Nat)
  | charsOp
  | stringOp
  | graphOp (n m : Nat) (directed : Bool)

/-- The value an operation returns to the caller. -/
inductive Out where
  | natOut (k : Nat)
  | natsOut (l : List Nat)
  | matOut (m : List (List Nat))
  | charsOut (cs : List Char)
  | strOut (t : String)
  | adjOut (a : List (List Nat))
  deriving DecidableEq, Repr

/-- Run one operation on the scanner. -/
def runOp : Op → Scanner → ScanResult Out
  | .tokOp, s => (Scanner.token parseUsize s).mapVal Out.natOut
  | .vecOp n, s => (Scanner.vec parseUsize n s).mapVal Out.natsOut
  | .matrixOp r c, s => (Scanner.matrix parseUsize r c s).mapVal Out.matOut
  | .charsOp, s => (Scanner.chars s).mapVal Out.charsOut
  | .stringOp, s => (Scanner.string s).mapVal Out.strOut
  | .graphOp n m d, s => (Scanner.graph n m d s).mapVal Out.adjOut

/-- Run a sequence of operations, recording each returned value; a panic or
divergence ends the run with no final scanner. -/
def runOps : List Op → Scanner → List Out × Option Scanner
  | [], s => ([], some s)
  | op :: ops, s =>
    match runOp op s with
    | .ok o s' =>
      let r := runOps ops s'
      (o :: r.1, r.2)
    | .panic _ => ([], none)
    | .diverge => ([], none)

/-- Claim C10: the scanner is deterministic — two runs of the same
operation sequence over byte-for-byte identical input produce equal
results and end with scanners whose pending-token buffers are equal. -/
theorem scanner_deterministic (ops : List Op) (lines₁ lines₂ : List String)
    (h : lines₁ = lines₂) :
    runOps ops (Scanner.new lines₁) = runOps ops (Scanner.new lines₂) ∧
    (runOps ops (Scanner.new lines₁)).2.map Scanner.buffer =
      (runOps ops (Scanner.new lines₂)).2.map Scanner.buffer := by
  subst h
  exact ⟨rfl, rfl⟩

theorem scanner_deterministic_witness :
    runOps [Op.tokOp, Op.vecOp 2] (Scanner.new ["1 2 3"]) =
      runOps [Op.tokOp, Op.vecOp 2] (Scanner.new ["1 2 3"]) ∧
    (runOps [Op.tokOp, Op.vecOp 2] (Scanner.new ["1 2 3"])).2.map
        Scanner.buffer =
      (runOps [Op.tokOp, Op.vecOp 2] (Scanner.new ["1 2 3"])).2.map
        Scanner.buffer :=
  scanner_deterministic [Op.tokOp, Op.vecOp 2] ["1 2 3"] ["1 2 3"] rfl

end CompetitiveScanner
